import Mathlib

/-!
Verification of the FJSP patient-processing scheduler.

This file gives a shallow embedding of the repository's scheduling core:

* `is_feasible`, `calculate_makespan`, `calculate_fitness`,
  `create_random_schedule`, `mutate`, `tournament_selection`,
  `order_crossover` and `solve` embed the methods of
  `GeneticAlgorithmFJSP` in `fjsp_solver_ga.py`;
* `generate_all_constraints` (with the reference data `PATIENTS`,
  `COUNTERS`, `P_TIME`, `PRECEDENCE`) embeds
  `fjsp_constraint_calculator.py`.

Conventions of the embedding: Python floats become rationals (`ℚ`),
`float('inf')` becomes `⊤ : WithTop ℚ`, dictionaries become total
functions (their key sets carried separately where the code iterates over
keys), and every draw from the global `random` generator becomes a read
from an explicit stream of pre-drawn values (`Rand`), threaded through the
computation in the order the Python code consumes randomness.
-/

namespace FJSP

/-- A scheduled operation, as the code represents it: the tuple
`(patient_id, counter_id, start_time)`. -/
abbrev Op := ℕ × ℕ × ℚ

/-- A chromosome / schedule: a list of scheduled operations. -/
abbrev Sched := List Op

/-- The instance description loaded by `load_data`: patient ids, counter
ids, the duration table `processing_times`, the per-patient key list
`operations` (in Python, `list(self.processing_times[p].keys())`), and the
per-patient precedence edge lists.  `processing_times` and `precedence`
are total functions; the code's `KeyError` surface corresponds to lookups
outside `operations`/`patients`, which the claims' well-formedness
hypotheses exclude. -/
structure FJSPInstance where
  patients : List ℕ
  counters : List ℕ
  processing_times : ℕ → ℕ → ℚ
  operations : ℕ → List ℕ
  precedence : ℕ → List (ℕ × ℕ)

/-- Order on scheduled operations by start time: the sort key
`lambda x: x[2]` used by `is_feasible`. -/
def startLE (a b : Op) : Prop := a.2.2 ≤ b.2.2

instance : DecidableRel startLE := fun a b => inferInstanceAs (Decidable (a.2.2 ≤ b.2.2))

instance : IsTotal Op startLE := ⟨fun a b => le_total a.2.2 b.2.2⟩

instance : IsTrans Op startLE := ⟨fun _ _ _ h1 h2 => le_trans h1 h2⟩

/-- `counter_ops` of `is_feasible`: the operations assigned to one
counter, sorted (stably, as Python's `list.sort`) by start time. -/
def counter_ops (sched : Sched) (counter : ℕ) : List Op :=
  List.insertionSort startLE (sched.filter (fun s => decide (s.2.1 = counter)))

/-- The consecutive-pair scan of `is_feasible`'s capacity loop: for the
sorted operation list of `counter`, each completion time
`start1 + processing_times[patient1][counter]` must be at most the next
start time (`start2 < end1` returns `False`). -/
def noOverlap (inst : FJSPInstance) (counter : ℕ) : List Op → Bool
  | a :: b :: rest =>
      decide (a.2.2 + inst.processing_times a.1 counter ≤ b.2.2) &&
        noOverlap inst counter (b :: rest)
  | _ => true

/-- The per-edge precedence check of `is_feasible`: compare the first
schedule entry of the patient on the predecessor counter with the first
on the successor counter (`prev_ops[0]`, `next_ops[0]`), skipping the
edge if either list is empty. -/
def prec_ok (inst : FJSPInstance) (sched : Sched) (patient : ℕ) (e : ℕ × ℕ) : Bool :=
  match sched.filter (fun s => decide (s.1 = patient) && decide (s.2.1 = e.1)),
        sched.filter (fun s => decide (s.1 = patient) && decide (s.2.1 = e.2)) with
  | p :: _, n :: _ =>
      decide (p.2.2 + inst.processing_times patient e.1 ≤ n.2.2)
  | _, _ => true

/-- `GeneticAlgorithmFJSP.is_feasible`: the capacity scan of each
counter's start-sorted operations, and the per-edge precedence check for
every patient. -/
def is_feasible (inst : FJSPInstance) (sched : Sched) : Bool :=
  (inst.counters.all (fun counter => noOverlap inst counter (counter_ops sched counter))) &&
  (inst.patients.all (fun patient =>
    (inst.precedence patient).all (prec_ok inst sched patient)))

/-- `GeneticAlgorithmFJSP.calculate_makespan`: `float('inf')` on the empty
schedule, otherwise the fold of `max` over completion times starting from
`max_completion = 0`. -/
def calculate_makespan (inst : FJSPInstance) (sched : Sched) : WithTop ℚ :=
  match sched with
  | [] => ⊤
  | _ => ((sched.foldl
      (fun acc s => max acc (s.2.2 + inst.processing_times s.1 s.2.1)) 0 : ℚ) : WithTop ℚ)

/-- `GeneticAlgorithmFJSP.calculate_fitness`: the infeasible sentinel
`float('inf')`, or the makespan. -/
def calculate_fitness (inst : FJSPInstance) (sched : Sched) : WithTop ℚ :=
  if is_feasible inst sched then calculate_makespan inst sched else ⊤

/-- The mutable state of `create_random_schedule`'s placement loop: the
schedule built so far and the dictionaries `counter_available_time` and
`patient_completion_time` (initialised to `0`, modelled as total
functions). -/
structure PlaceState where
  schedule : Sched
  counter_available_time : ℕ → ℚ
  patient_completion_time : ℕ → ℚ

/-- The `earliest_start` computation of `create_random_schedule`'s
placement loop: the max of the counter's availability and the patient's
completion time, tightened by the completion time of the predecessor
(`prev_ops[0]`) of each precedence edge ending at this counter whose
predecessor already appears in the schedule. -/
def earliest_start (inst : FJSPInstance) (st : PlaceState) (patient counter : ℕ) : ℚ :=
  (inst.precedence patient).foldl (fun acc e =>
      if counter = e.2 then
        match st.schedule.filter (fun s => decide (s.1 = patient) && decide (s.2.1 = e.1)) with
        | [] => acc
        | prev :: _ => max acc (prev.2.2 + inst.processing_times patient e.1)
      else acc)
    (max (st.counter_available_time counter) (st.patient_completion_time patient))

/-- One iteration of `create_random_schedule`'s placement loop: append
the operation at its earliest start and update both dictionaries to
`earliest_start + duration`. -/
def place (inst : FJSPInstance) (st : PlaceState) (op : ℕ × ℕ) : PlaceState :=
  { schedule := st.schedule ++ [(op.1, op.2, earliest_start inst st op.1 op.2)]
    counter_available_time := fun c =>
      if c = op.2 then earliest_start inst st op.1 op.2 + inst.processing_times op.1 op.2
      else st.counter_available_time c
    patient_completion_time := fun p =>
      if p = op.1 then earliest_start inst st op.1 op.2 + inst.processing_times op.1 op.2
      else st.patient_completion_time p }

/-- The initial placement state: empty schedule, all availability and
completion times `0`. -/
def initState : PlaceState := ⟨[], fun _ => 0, fun _ => 0⟩

/-- `GeneticAlgorithmFJSP.create_random_schedule`, with the shuffled
operation order passed explicitly (`random.shuffle(all_operations)` is the
only randomness the method consumes). -/
def create_random_schedule (inst : FJSPInstance) (order : List (ℕ × ℕ)) : Sched :=
  (order.foldl (place inst) initState).schedule

/-- The unshuffled operation list `all_operations` built by
`create_random_schedule`: all `(patient, counter)` pairs, patients in
order, each patient's counters in `operations` order. -/
def all_operations (inst : FJSPInstance) : List (ℕ × ℕ) :=
  (inst.patients.map (fun p => (inst.operations p).map (fun c => (p, c)))).flatten

/-- `GeneticAlgorithmFJSP.mutate`, with its random draws passed
explicitly: `skip` is the outcome of `random.random() > mutation_rate`
(return the schedule unchanged), `idx` the drawn position
(`random.randint(0, len-1)`), `adj` the drawn offset
(`random.uniform(-10, 10)`).  The perturbed start time is clamped by
`max(0, start_time + adjustment)`.  The `none` branch covers the
`len(mutated) > 0` guard (the index is always in range in the code). -/
def mutate (sched : Sched) (skip : Bool) (idx : ℕ) (adj : ℚ) : Sched :=
  if skip then sched
  else match sched[idx]? with
    | none => sched
    | some (patient, counter, start_time) =>
        sched.set idx (patient, counter, max 0 (start_time + adj))

/-- The GA configuration set in `__init__` (each field independently
overridable in the claims). -/
structure GAParams where
  population_size : ℕ
  generations : ℕ
  mutation_rate : ℚ
  crossover_rate : ℚ
  elite_size : ℕ
  tournament_size : ℕ

/-- The reference configuration: population 100, 200 generations,
mutation rate 0.15, crossover rate 0.8, elite size 10, tournament
size 5. -/
def defaultParams : GAParams := ⟨100, 200, 15/100, 8/10, 10, 5⟩

/-- The state of the shared random generator, modelled as two streams of
pre-drawn values (naturals for index draws, rationals for `random.random`
and `random.uniform`) plus the current read position.  A deterministic
generator with a given seed is one particular pair of streams; equality of
`Rand` values models equality of generator states. -/
structure Rand where
  nats : ℕ → ℕ
  rats : ℕ → ℚ
  pos : ℕ

/-- Draw a natural below `n` (models `random.randint(0, n-1)` /
`random.randrange(n)`). -/
def Rand.natLt (r : Rand) (n : ℕ) : ℕ × Rand :=
  (r.nats r.pos % n, ⟨r.nats, r.rats, r.pos + 1⟩)

/-- Draw a rational (models `random.random()`). -/
def Rand.unit (r : Rand) : ℚ × Rand :=
  (r.rats r.pos, ⟨r.nats, r.rats, r.pos + 1⟩)

/-- Draw a rational in `[a, b]` (models `random.uniform(a, b)`). -/
def Rand.range (r : Rand) (a b : ℚ) : ℚ × Rand :=
  (a + r.rats r.pos * (b - a), ⟨r.nats, r.rats, r.pos + 1⟩)

/-- Draw `n` elements of `xs` without replacement, in random order: the
common model for both `random.shuffle` (with `n = xs.length`) and
`random.sample` (with `n` the sample size). -/
def drawPerm (d : ℕ × ℕ) : ℕ → Rand → List (ℕ × ℕ) → List (ℕ × ℕ) × Rand
  | 0, r, _ => ([], r)
  | n + 1, r, xs =>
      let (i, r1) := r.natLt xs.length
      let (rest, r2) := drawPerm d n r1 (xs.eraseIdx i)
      (xs.getD i d :: rest, r2)

/-- `create_random_schedule` as the search engine calls it: shuffle
`all_operations`, then place greedily. -/
def random_schedule_draw (inst : FJSPInstance) (r : Rand) : Sched × Rand :=
  let ops := all_operations inst
  let (order, r1) := drawPerm (0, 0) ops.length r ops
  (create_random_schedule inst order, r1)

/-- `GeneticAlgorithmFJSP.tournament_selection`: sample
`tournament_size` distinct indices, then return the member whose fitness
is the sampled minimum (first occurrence, as `list.index(min(...))`).
Index draws are modelled over the index pair list `(i, i)` so one
`drawPerm` serves both shuffling and sampling. -/
def tournament_selection (params : GAParams) (population : List Sched)
    (fitnesses : List (WithTop ℚ)) (r : Rand) : Sched × Rand :=
  let idxRange := (List.range population.length).map (fun i => (i, i))
  let (sample, r1) := drawPerm (0, 0) params.tournament_size r idxRange
  let tournament_indices := sample.map (fun x => x.1)
  let tournament_fitnesses := tournament_indices.map (fun i => fitnesses.getD i ⊤)
  let m := tournament_fitnesses.foldl min ⊤
  let winner_index := tournament_indices.getD
      (tournament_fitnesses.findIdx (fun x => decide (x = m))) 0
  (population.getD winner_index [], r1)

/-- `GeneticAlgorithmFJSP.order_crossover`: with probability
`1 - crossover_rate` pass the parents through (deep copies = the same
values); otherwise discard them and draw two fresh random schedules. -/
def order_crossover (inst : FJSPInstance) (params : GAParams)
    (parent1 parent2 : Sched) (r : Rand) : Sched × Sched × Rand :=
  let (u, r1) := r.unit
  if params.crossover_rate < u then (parent1, parent2, r1)
  else
    let (child1, r2) := random_schedule_draw inst r1
    let (child2, r3) := random_schedule_draw inst r2
    (child1, child2, r3)

/-- `mutate` as the search engine calls it, drawing the skip coin, the
position and the offset from the generator (the position and offset are
drawn only when the mutation fires and the schedule is nonempty, as in
the code). -/
def mutate_draw (params : GAParams) (sched : Sched) (r : Rand) : Sched × Rand :=
  let (u, r1) := r.unit
  if params.mutation_rate < u then (sched, r1)
  else if 0 < sched.length then
    let (idx, r2) := r1.natLt sched.length
    let (adj, r3) := r2.range (-10) 10
    (mutate sched false idx adj, r3)
  else (sched, r1)

/-- Order on population members by fitness — the key
`lambda i: fitnesses[i]` of the elitism sort (fitness recomputation is
sound because `calculate_fitness` is pure). -/
def fitLE (inst : FJSPInstance) (a b : Sched) : Prop :=
  calculate_fitness inst a ≤ calculate_fitness inst b

instance (inst : FJSPInstance) : DecidableRel (fitLE inst) := fun a b =>
  inferInstanceAs (Decidable (calculate_fitness inst a ≤ calculate_fitness inst b))

instance (inst : FJSPInstance) : IsTotal Sched (fitLE inst) :=
  ⟨fun a b => le_total (calculate_fitness inst a) (calculate_fitness inst b)⟩

instance (inst : FJSPInstance) : IsTrans Sched (fitLE inst) :=
  ⟨fun _ _ _ h1 h2 => le_trans h1 h2⟩

/-- The elite copies seeding the next generation:
`sorted(range(len), key=fitnesses)[:elite_size]` followed by copying is a
stable sort of the population by fitness, truncated to `elite_size`. -/
def elites (inst : FJSPInstance) (params : GAParams) (population : List Sched) : List Sched :=
  (List.insertionSort (fitLE inst) population).take params.elite_size

/-- One iteration body of the reproduction loop: two tournament parents,
crossover, two mutations; returns the two children and the advanced
generator. -/
def offspring (inst : FJSPInstance) (params : GAParams) (population : List Sched)
    (fitnesses : List (WithTop ℚ)) (r : Rand) : Sched × Sched × Rand :=
  let (parent1, r1) := tournament_selection params population fitnesses r
  let (parent2, r2) := tournament_selection params population fitnesses r1
  let (child1, child2, r3) := order_crossover inst params parent1 parent2 r2
  let (child1m, r4) := mutate_draw params child1 r3
  let (child2m, r5) := mutate_draw params child2 r4
  (child1m, child2m, r5)

/-- The `while len(new_population) < population_size` reproduction loop:
append both children of `offspring` until the population size is
reached.  Fuel bounds the iteration count; `population_size` units always
suffice because every iteration appends two members. -/
def extend_population (inst : FJSPInstance) (params : GAParams)
    (population : List Sched) (fitnesses : List (WithTop ℚ)) :
    ℕ → List Sched → Rand → List Sched × Rand
  | 0, new_population, r => (new_population, r)
  | fuel + 1, new_population, r =>
      if new_population.length < params.population_size then
        extend_population inst params population fitnesses fuel
          (new_population ++ [(offspring inst params population fitnesses r).1,
                              (offspring inst params population fitnesses r).2.1])
          (offspring inst params population fitnesses r).2.2
      else (new_population, r)

/-- Build the next generation: elites, extended by offspring until the
population size is reached, truncated to `population_size`. -/
def next_generation (inst : FJSPInstance) (params : GAParams)
    (population : List Sched) (fitnesses : List (WithTop ℚ)) (r : Rand) :
    List Sched × Rand :=
  ((extend_population inst params population fitnesses
      params.population_size (elites inst params population) r).1.take params.population_size,
   (extend_population inst params population fitnesses
      params.population_size (elites inst params population) r).2)

/-- The result dictionary of `solve` (without the derived per-patient
report fields, which are external reporting concerns). -/
structure GAResult where
  makespan : WithTop ℚ
  best_schedule : Option Sched
  fitness_history : List (WithTop ℚ)

/-- `best_gen_fitness = min(fitnesses)` of one generation (the Python
`min` of a nonempty list; folding from `⊤` totalises the empty case). -/
def best_gen_fitness (inst : FJSPInstance) (population : List Sched) : WithTop ℚ :=
  (population.map (calculate_fitness inst)).foldl min ⊤

/-- `best_gen_schedule = population[fitnesses.index(min(fitnesses))]`. -/
def best_gen_schedule (inst : FJSPInstance) (population : List Sched) : Sched :=
  population.getD
    ((population.map (calculate_fitness inst)).findIdx
      (fun x => decide (x = best_gen_fitness inst population))) []

/-- The best-overall update: replace the snapshot when the generation's
best fitness strictly improves on it. -/
def update_best (inst : FJSPInstance) (population : List Sched)
    (best : WithTop ℚ × Option Sched) : WithTop ℚ × Option Sched :=
  if best_gen_fitness inst population < best.1
    then (best_gen_fitness inst population, some (best_gen_schedule inst population))
    else best

/-- The generation loop of `solve`: per generation, evaluate fitnesses,
record the generation's best fitness in the history, update the best
overall snapshot when strictly improved, then reproduce. -/
def ga_loop (inst : FJSPInstance) (params : GAParams) :
    ℕ → List Sched → WithTop ℚ × Option Sched → List (WithTop ℚ) → Rand →
    (WithTop ℚ × Option Sched) × List (WithTop ℚ) × Rand
  | 0, _, best, history, r => (best, history, r)
  | gens + 1, population, best, history, r =>
      ga_loop inst params gens
        (next_generation inst params population (population.map (calculate_fitness inst)) r).1
        (update_best inst population best)
        (history ++ [best_gen_fitness inst population])
        (next_generation inst params population (population.map (calculate_fitness inst)) r).2

/-- The initial population: `population_size` independently drawn random
schedules, in draw order. -/
def init_population (inst : FJSPInstance) : ℕ → Rand → List Sched × Rand
  | 0, r => ([], r)
  | n + 1, r =>
      ((random_schedule_draw inst r).1 ::
          (init_population inst n (random_schedule_draw inst r).2).1,
       (init_population inst n (random_schedule_draw inst r).2).2)

/-- `GeneticAlgorithmFJSP.solve`: initial population, `generations`
rounds of the loop, returning the best overall fitness as `makespan`, the
best overall schedule snapshot, and the best-fitness history. -/
def solve (inst : FJSPInstance) (params : GAParams) (r : Rand) : GAResult :=
  { makespan := (ga_loop inst params params.generations
      (init_population inst params.population_size r).1 (⊤, none) []
      (init_population inst params.population_size r).2).1.1
    best_schedule := (ga_loop inst params params.generations
      (init_population inst params.population_size r).1 (⊤, none) []
      (init_population inst params.population_size r).2).1.2
    fitness_history := (ga_loop inst params params.generations
      (init_population inst params.population_size r).1 (⊤, none) []
      (init_population inst params.population_size r).2).2.1 }

/-! The reference 5-patient / 5-counter instance and the constraint
calculator of `fjsp_constraint_calculator.py`. -/

/-- The patient list of the reference instance. -/
def PATIENTS : List ℕ := [1, 2, 3, 4, 5]

/-- The counter list of the reference instance. -/
def COUNTERS : List ℕ := [1, 2, 3, 4, 5]

/-- The duration table `P_TIME` of the reference instance (total
function; `0` outside the table). -/
def P_TIME : ℕ → ℕ → ℚ
  | 1, 1 => 11
  | 1, 2 => 5
  | 2, 2 => 5
  | 2, 3 => 10
  | 2, 4 => 18
  | 3, 2 => 5
  | 3, 3 => 10
  | 4, 2 => 5
  | 4, 3 => 10
  | 4, 4 => 18
  | 5, 1 => 11
  | 5, 5 => 15
  | _, _ => 0

/-- The key sets of the `P_TIME` rows (the dictionary's keys, in literal
order). -/
def P_KEYS : ℕ → List ℕ
  | 1 => [1, 2]
  | 2 => [2, 3, 4]
  | 3 => [2, 3]
  | 4 => [2, 3, 4]
  | 5 => [1, 5]
  | _ => []

/-- The precedence table `PRECEDENCE` of the reference instance. -/
def PRECEDENCE : ℕ → List (ℕ × ℕ)
  | 1 => [(1, 2)]
  | 2 => [(2, 3), (3, 4)]
  | 3 => [(2, 3)]
  | 4 => [(2, 3), (3, 4)]
  | 5 => [(1, 5)]
  | _ => []

/-- The reference instance as loaded from the paper-exact data (the same
tables appear in `fjsp_constraint_calculator.py` and
`synthetic_data_generator.py`). -/
def referenceInstance : FJSPInstance :=
  { patients := PATIENTS
    counters := COUNTERS
    processing_times := P_TIME
    operations := P_KEYS
    precedence := PRECEDENCE }

/-- `[p for p in PATIENTS if counter in P_TIME[p]]`. -/
def patients_on_counter (counter : ℕ) : List ℕ :=
  PATIENTS.filter (fun p => decide (counter ∈ P_KEYS p))

/-- The nested `for i, p1 in enumerate(l): for p2 in l[i+1:]` pair
enumeration of the capacity loop. -/
def unordered_pairs : List ℕ → List (ℕ × ℕ)
  | [] => []
  | x :: xs => xs.map (fun y => (x, y)) ++ unordered_pairs xs

/-- The structured output of `generate_all_constraints`: each constraint
is recorded by the data that parameterises its printed inequality (the
running constraint numbers are positional, so the families are kept as
lists).  The `non_negativity` list's `none` entry is the `Cmax >= 0`
constraint. -/
structure ConstraintSummary where
  capacity : List (ℕ × ℕ × ℕ)
  precedence_list : List (ℕ × ℕ × ℕ)
  makespan_list : List (ℕ × ℕ)
  non_negativity : List (Option (ℕ × ℕ))
  total : ℕ

/-- `generate_all_constraints` of `fjsp_constraint_calculator.py`:
capacity constraints per counter and unordered patient pair sharing it;
precedence constraints per patient and edge; makespan-boundary
constraints per operation; non-negativity constraints for `Cmax` and for
every operation; `total` is the final running count, the sum of the four
family sizes. -/
def generate_all_constraints : ConstraintSummary :=
  let capacity := (COUNTERS.map (fun c =>
      (unordered_pairs (patients_on_counter c)).map (fun pr => (c, pr.1, pr.2)))).flatten
  let precedence_list := (PATIENTS.map (fun p =>
      (PRECEDENCE p).map (fun e => (p, e.1, e.2)))).flatten
  let makespan_list := (PATIENTS.map (fun p =>
      (P_KEYS p).map (fun c => (p, c)))).flatten
  let non_negativity := none :: (PATIENTS.map (fun p =>
      (P_KEYS p).map (fun c => some (p, c)))).flatten
  { capacity := capacity
    precedence_list := precedence_list
    makespan_list := makespan_list
    non_negativity := non_negativity
    total := capacity.length + precedence_list.length +
      makespan_list.length + non_negativity.length }

/-! Specification-side predicates (written from the spec's words, for the
refinement claims) and proof-side invariants. -/

/-- Spec-side feasibility, following §4.3 of the spec: per counter, the
start-sorted assigned operations pairwise satisfy completion ≤ next start
(touching allowed); per patient and precedence edge, every operation of
the patient on the predecessor counter completes no later than every
operation of the patient on the successor counter starts. -/
def spec_feasible (inst : FJSPInstance) (sched : Sched) : Prop :=
  (∀ counter ∈ inst.counters,
      List.Chain' (fun a b : Op => a.2.2 + inst.processing_times a.1 a.2.1 ≤ b.2.2)
        (counter_ops sched counter)) ∧
  (∀ patient ∈ inst.patients, ∀ e ∈ inst.precedence patient, ∀ a ∈ sched, ∀ b ∈ sched,
      a.1 = patient → a.2.1 = e.1 → b.1 = patient → b.2.1 = e.2 →
      a.2.2 + inst.processing_times patient e.1 ≤ b.2.2)

/-- Two operations placed in this order do not overlap when they share a
counter: the earlier one completes no later than the later one starts. -/
def sameCounterSeq (inst : FJSPInstance) (a b : Op) : Prop :=
  a.2.1 = b.2.1 → a.2.2 + inst.processing_times a.1 a.2.1 ≤ b.2.2

/-- Two operations of the same patient placed in this order are
sequential: the earlier one completes no later than the later one
starts. -/
def samePatientSeq (inst : FJSPInstance) (a b : Op) : Prop :=
  a.1 = b.1 → a.2.2 + inst.processing_times a.1 a.2.1 ≤ b.2.2

/-- Satisfaction of a precedence edge by a predecessor operation placed
before a successor operation of the same patient. -/
def precEdgeSeq (inst : FJSPInstance) (a b : Op) : Prop :=
  ∀ e ∈ inst.precedence a.1, b.1 = a.1 → a.2.1 = e.1 → b.2.1 = e.2 →
    a.2.2 + inst.processing_times a.1 e.1 ≤ b.2.2

/-- The loop invariant of `create_random_schedule`'s placement fold: the
availability/completion dictionaries are non-negative upper bounds on the
completion times of the operations placed so far, and placed operations
are sequential per counter and per patient. -/
structure PlaceInv (inst : FJSPInstance) (st : PlaceState) : Prop where
  cav_nonneg : ∀ c, 0 ≤ st.counter_available_time c
  pct_nonneg : ∀ p, 0 ≤ st.patient_completion_time p
  start_nonneg : ∀ s ∈ st.schedule, 0 ≤ s.2.2
  cav_ub : ∀ s ∈ st.schedule,
    s.2.2 + inst.processing_times s.1 s.2.1 ≤ st.counter_available_time s.2.1
  pct_ub : ∀ s ∈ st.schedule,
    s.2.2 + inst.processing_times s.1 s.2.1 ≤ st.patient_completion_time s.1
  counter_seq : List.Pairwise (sameCounterSeq inst) st.schedule
  patient_seq : List.Pairwise (samePatientSeq inst) st.schedule

/-- The invariant of the best-overall tracker against the recorded
history: before any generation has run the tracker is the sentinel `⊤`,
and afterwards it is a minimum of the recorded history. -/
def histInv (best : WithTop ℚ) (hist : List (WithTop ℚ)) : Prop :=
  (hist = [] → best = ⊤) ∧ (hist ≠ [] → best ∈ hist ∧ ∀ x ∈ hist, best ≤ x)

/-! Concrete fixtures used by the witness theorems and counterexamples. -/

/-- The hand-constructed schedule of the spec's end-to-end scenario:
P1 on counter 1 at `[0, 11)` and counter 2 at `[11, 16)`; P5 on counter 1
at `[11, 22)` and counter 5 at `[22, 37)`. -/
def handSchedule : Sched := [(1, 1, 0), (1, 2, 11), (5, 1, 11), (5, 5, 22)]

/-- A degenerate schedule that lists patient 1's operation on counter 1
twice, with different start times. -/
def dupSchedule : Sched := [(1, 1, 0), (1, 2, 100), (1, 1, 96)]

/-- A two-operation schedule used to instantiate the mutation claims. -/
def mutDemo : Sched := [(1, 1, 3), (2, 2, 0)]

/-- A one-patient, one-counter instance small enough to evaluate the full
search engine inside proofs. -/
def tinyInstance : FJSPInstance :=
  { patients := [1]
    counters := [1]
    processing_times := fun _ _ => 1
    operations := fun _ => [1]
    precedence := fun _ => [] }

/-- A small search configuration for concrete runs of `solve`. -/
def tinyParams : GAParams := ⟨2, 2, 15/100, 8/10, 1, 1⟩

/-- A concrete generator state (constant streams). -/
def tinyRand : Rand := ⟨fun _ => 0, fun _ => 0, 0⟩

/-! Claim theorems. -/

/-- C5: on the reference 5-patient/5-counter instance,
`generate_all_constraints` emits exactly 11 capacity constraints (the sum
over counters of `C(n, 2)` for the `n` patients sharing the counter),
7 precedence constraints (one per precedence edge), 12 makespan-boundary
constraints (one per operation), 13 non-negativity constraints (one for
the makespan variable plus one per operation), and a total of 43, the sum
of the four family sizes. -/
theorem claim_C5 :
    generate_all_constraints.capacity.length = 11 ∧
    generate_all_constraints.capacity.length =
      (COUNTERS.map (fun c => Nat.choose (patients_on_counter c).length 2)).sum ∧
    generate_all_constraints.precedence_list.length = 7 ∧
    generate_all_constraints.precedence_list.length =
      (PATIENTS.map (fun p => (PRECEDENCE p).length)).sum ∧
    generate_all_constraints.makespan_list.length = 12 ∧
    generate_all_constraints.makespan_list.length =
      (PATIENTS.map (fun p => (P_KEYS p).length)).sum ∧
    generate_all_constraints.non_negativity.length = 13 ∧
    generate_all_constraints.non_negativity.length =
      1 + (PATIENTS.map (fun p => (P_KEYS p).length)).sum ∧
    generate_all_constraints.total = 43 ∧
    generate_all_constraints.total =
      generate_all_constraints.capacity.length +
      generate_all_constraints.precedence_list.length +
      generate_all_constraints.makespan_list.length +
      generate_all_constraints.non_negativity.length := by
  decide

/-- C6: on the reference instance, the hand-constructed schedule (P1 on
counter 1 at 0 for 11 and counter 2 at 11 for 5; P5 on counter 1 at 11
for 11 and counter 5 at 22 for 15) is accepted by `is_feasible`, and
`calculate_makespan` returns 37 on it. -/
theorem claim_C6 :
    is_feasible referenceInstance handSchedule = true ∧
    calculate_makespan referenceInstance handSchedule = ((37 : ℚ) : WithTop ℚ) :=
  ⟨by with_unfolding_all rfl, by with_unfolding_all rfl⟩

/-- C7: if every start time of the input schedule is non-negative, then
every start time of the schedule returned by `mutate` is non-negative,
for every random draw (skip coin, position, offset — including a large
negative offset): the perturbed start is clamped at 0. -/
theorem claim_C7 (sched : Sched) (skip : Bool) (idx : ℕ) (adj : ℚ)
    (h : ∀ s ∈ sched, 0 ≤ s.2.2) :
    ∀ s ∈ mutate sched skip idx adj, 0 ≤ s.2.2 := by
  intro s hs
  unfold mutate at hs
  by_cases hskip : skip = true
  · rw [if_pos hskip] at hs
    exact h s hs
  · rw [if_neg hskip] at hs
    cases hidx : sched[idx]? with
    | none =>
        rw [hidx] at hs
        exact h s hs
    | some op =>
        obtain ⟨p, c, st⟩ := op
        rw [hidx] at hs
        rcases List.mem_or_eq_of_mem_set hs with h1 | h1
        · exact h s h1
        · rw [h1]
          exact le_max_left 0 (st + adj)

/-- C7 witness: the non-negativity conclusion instantiated at the
schedule `mutDemo`, a skipless draw of position 0 and offset −100, and
the resulting operation `(1, 1, 0)`. -/
theorem claim_C7_witness : (0 : ℚ) ≤ (((1 : ℕ), (1 : ℕ), (0 : ℚ)) : Op).2.2 :=
  claim_C7 mutDemo false 0 (-100) (by with_unfolding_all decide)
    (1, 1, 0) (by with_unfolding_all decide)

/-- C8: `mutate` returns a list of the same length as its input, equal to
the input at every position other than the drawn one, and at the drawn
position it preserves the patient and counter identifiers, changing at
most the start time. -/
theorem claim_C8 (sched : Sched) (skip : Bool) (idx : ℕ) (adj : ℚ) :
    (mutate sched skip idx adj).length = sched.length ∧
    (∀ i, i ≠ idx → (mutate sched skip idx adj)[i]? = sched[i]?) ∧
    (∀ p c st, sched[idx]? = some (p, c, st) →
      ∃ st2, (mutate sched skip idx adj)[idx]? = some (p, c, st2)) := by
  unfold mutate
  by_cases hskip : skip = true
  · rw [if_pos hskip]
    exact ⟨rfl, fun i _ => rfl, fun p c st he => ⟨st, he⟩⟩
  · rw [if_neg hskip]
    cases hidx : sched[idx]? with
    | none => exact ⟨rfl, fun i _ => rfl, fun p c st he => Option.noConfusion he⟩
    | some op =>
        obtain ⟨p0, c0, st0⟩ := op
        refine ⟨List.length_set sched idx _, fun i hi => ?_, fun p c st he => ?_⟩
        · exact List.getElem?_set_ne (Ne.symm hi)
        · have hi : idx < sched.length := by
            rcases List.getElem?_eq_some_iff.mp hidx with ⟨hlt, _⟩
            exact hlt
          refine ⟨max 0 (st0 + adj), ?_⟩
          rw [List.getElem?_set]
          rw [if_pos rfl, if_pos hi]
          have : (p0, c0, st0) = (p, c, st) := Option.some_injective _ he
          rw [Prod.mk.injEq] at this
          obtain ⟨h1, h2⟩ := this
          rw [Prod.mk.injEq] at h2
          rw [h1, h2.1]

/-- C8 witness: the frame property instantiated at `mutDemo` with the
drawn position 0 and offset −100: the length is preserved and position 1
is untouched. -/
theorem claim_C8_witness :
    (mutate mutDemo false 0 (-100)).length = mutDemo.length ∧
    (mutate mutDemo false 0 (-100))[1]? = mutDemo[1]? :=
  ⟨(claim_C8 mutDemo false 0 (-100)).1,
   (claim_C8 mutDemo false 0 (-100)).2.1 1 (by decide)⟩

/-- C9: two runs of `solve` on the same instance with the same
configuration and the same generator state produce the same best-fitness
history.  In this embedding every random draw of construction, selection,
recombination and mutation is read off the explicit generator argument,
so the run is a pure function of it. -/
theorem claim_C9 (inst : FJSPInstance) (params : GAParams) (r1 r2 : Rand)
    (h : r1 = r2) :
    (solve inst params r1).fitness_history = (solve inst params r2).fitness_history := by
  rw [h]

/-- C9 witness: the reproducibility conclusion at the tiny fixture run,
with the equal-state hypothesis discharged by `rfl`. -/
theorem claim_C9_witness :
    (solve tinyInstance tinyParams tinyRand).fitness_history =
      (solve tinyInstance tinyParams tinyRand).fitness_history :=
  claim_C9 tinyInstance tinyParams tinyRand tinyRand rfl

lemma foldl_max_init_le (l : List ℚ) (a : ℚ) : a ≤ l.foldl max a := by
  induction l generalizing a with
  | nil => exact le_rfl
  | cons x xs ih => exact le_trans (le_max_left a x) (ih (max a x))

lemma le_foldl_max (l : List ℚ) (a x : ℚ) (hx : x ∈ l) : x ≤ l.foldl max a := by
  induction l generalizing a with
  | nil => cases hx
  | cons y ys ih =>
    rcases List.mem_cons.mp hx with h | h
    · rw [h]
      exact le_trans (le_max_right a y) (foldl_max_init_le ys (max a y))
    · exact ih (max a y) h

lemma foldl_max_attained (l : List ℚ) (a : ℚ) : l.foldl max a = a ∨ l.foldl max a ∈ l := by
  induction l generalizing a with
  | nil => exact Or.inl rfl
  | cons x xs ih =>
    rcases ih (max a x) with h | h
    · rcases max_choice a x with he | he
      · exact Or.inl (by rw [List.foldl_cons, h, he])
      · refine Or.inr ?_
        rw [List.foldl_cons, h, he]
        exact List.mem_cons_self x xs
    · refine Or.inr (List.mem_cons_of_mem x ?_)
      rw [List.foldl_cons]
      exact h

lemma makespan_fold_eq (inst : FJSPInstance) (l : List Op) (a : ℚ) :
    l.foldl (fun acc s => max acc (s.2.2 + inst.processing_times s.1 s.2.1)) a =
      (l.map (fun s => s.2.2 + inst.processing_times s.1 s.2.1)).foldl max a := by
  induction l generalizing a with
  | nil => rfl
  | cons x xs ih => exact ih (max a (x.2.2 + inst.processing_times x.1 x.2.1))

set_option maxHeartbeats 1000000 in
lemma calculate_makespan_cons (inst : FJSPInstance) (s0 : Op) (rest : List Op) :
    calculate_makespan inst (s0 :: rest) =
      (((s0 :: rest).foldl
        (fun acc s => max acc (s.2.2 + inst.processing_times s.1 s.2.1)) 0 : ℚ) : WithTop ℚ) := rfl

set_option maxHeartbeats 1000000 in
/-- C3 (amended): for every nonempty schedule with non-negative start
times and positive durations for its scheduled operations,
`calculate_fitness` returns the infinite sentinel exactly when
`is_feasible` rejects the schedule, and otherwise returns a finite value
that is the maximum completion time (start + duration) over the
schedule's operations; there is no intermediate value.  (The claim as
stated over all schedules fails on the empty schedule, which is feasible
yet scored with the sentinel — see the counterexample.) -/
theorem claim_C3 (inst : FJSPInstance) (sched : Sched) (hne : sched ≠ [])
    (h0 : ∀ s ∈ sched, 0 ≤ s.2.2)
    (hd : ∀ s ∈ sched, 0 < inst.processing_times s.1 s.2.1) :
    (is_feasible inst sched = false → calculate_fitness inst sched = ⊤) ∧
    (is_feasible inst sched = true →
      ∃ m : ℚ, calculate_fitness inst sched = (m : WithTop ℚ) ∧
        (∀ s ∈ sched, s.2.2 + inst.processing_times s.1 s.2.1 ≤ m) ∧
        (∃ s ∈ sched, s.2.2 + inst.processing_times s.1 s.2.1 = m)) := by
  constructor
  · intro hf
    unfold calculate_fitness
    rw [if_neg]
    rw [hf]
    exact Bool.false_ne_true
  · intro hf
    unfold calculate_fitness
    rw [if_pos hf]
    cases sched with
    | nil => exact absurd rfl hne
    | cons s0 rest =>
      refine ⟨(s0 :: rest).foldl
          (fun acc s => max acc (s.2.2 + inst.processing_times s.1 s.2.1)) 0,
          calculate_makespan_cons inst s0 rest, ?_, ?_⟩
      · intro s hs
        rw [makespan_fold_eq]
        exact le_foldl_max _ 0 _ (List.mem_map_of_mem _ hs)
      · rw [makespan_fold_eq]
        rcases foldl_max_attained
            ((s0 :: rest).map (fun s => s.2.2 + inst.processing_times s.1 s.2.1)) 0 with h | h
        · exfalso
          have h1 : s0.2.2 + inst.processing_times s0.1 s0.2.1 ≤
              ((s0 :: rest).map (fun s => s.2.2 + inst.processing_times s.1 s.2.1)).foldl max 0 :=
            le_foldl_max _ 0 _ (List.mem_map_of_mem _ (List.mem_cons_self s0 rest))
          have h2 : 0 < s0.2.2 + inst.processing_times s0.1 s0.2.1 :=
            add_pos_of_nonneg_of_pos (h0 s0 (List.mem_cons_self s0 rest))
              (hd s0 (List.mem_cons_self s0 rest))
          rw [h] at h1
          exact absurd (lt_of_lt_of_le h2 h1) (lt_irrefl 0)
        · rcases List.mem_map.mp h with ⟨s, hs, he⟩
          exact ⟨s, hs, he⟩

/-- C3 counterexample: the claim quantifies over every schedule, but on
the empty schedule `is_feasible` returns `True` while `calculate_fitness`
returns the infinite sentinel, not the maximum completion time over the
schedule's operations (there is none to return). -/
theorem claim_C3_counterexample :
    is_feasible referenceInstance [] = true ∧
    calculate_fitness referenceInstance [] = ⊤ ∧
    ¬∃ m : ℚ, calculate_fitness referenceInstance [] = (m : WithTop ℚ) := by
  refine ⟨rfl, rfl, ?_⟩
  rintro ⟨m, hm⟩
  exact WithTop.top_ne_coe hm

/-- C3 witness: the amended dichotomy applied to the feasible
hand-constructed schedule shows its fitness is finite (not the
sentinel). -/
theorem claim_C3_witness :
    calculate_fitness referenceInstance handSchedule ≠ ⊤ := by
  obtain ⟨m, hm, _, _⟩ := (claim_C3 referenceInstance handSchedule
      (List.cons_ne_nil _ _) (by with_unfolding_all decide)
      (by with_unfolding_all decide)).2 (by with_unfolding_all rfl)
  rw [hm]
  exact WithTop.coe_ne_top

lemma mem_counter_ops {sched : Sched} {counter : ℕ} {a : Op} :
    a ∈ counter_ops sched counter ↔ a ∈ sched ∧ a.2.1 = counter := by
  unfold counter_ops
  rw [(List.perm_insertionSort startLE _).mem_iff, List.mem_filter, decide_eq_true_eq]

lemma noOverlap_iff_chain (inst : FJSPInstance) (counter : ℕ) :
    ∀ l : List Op, (∀ a ∈ l, a.2.1 = counter) →
      (noOverlap inst counter l = true ↔
        List.Chain' (fun a b : Op => a.2.2 + inst.processing_times a.1 a.2.1 ≤ b.2.2) l) := by
  intro l
  induction l with
  | nil => intro _; simp [noOverlap]
  | cons a tail ih =>
    intro hmem
    cases tail with
    | nil => simp [noOverlap]
    | cons b rest =>
      have ih2 := ih (fun x hx => hmem x (List.mem_cons_of_mem a hx))
      have ha : a.2.1 = counter := hmem a (List.mem_cons_self a _)
      rw [List.chain'_cons]
      show (decide (a.2.2 + inst.processing_times a.1 counter ≤ b.2.2) &&
          noOverlap inst counter (b :: rest)) = true ↔ _
      rw [Bool.and_eq_true, decide_eq_true_eq, ih2, ha]

lemma filter_proj_unique {sched : Sched}
    (hnd : (sched.map (fun s : Op => (s.1, s.2.1))).Nodup)
    {q : Op → Bool} {v : ℕ × ℕ} (hq : ∀ s : Op, q s = true → (s.1, s.2.1) = v)
    {p1 : Op} {rest : List Op} (hf : sched.filter q = p1 :: rest)
    {a : Op} (ha : a ∈ sched) (haq : q a = true) : a = p1 := by
  have hsub : (p1 :: rest).Sublist sched := hf ▸ List.filter_sublist sched
  have hnd2 : ((p1 :: rest).map (fun s : Op => (s.1, s.2.1))).Nodup :=
    hnd.sublist (hsub.map _)
  have hmem : a ∈ p1 :: rest := by
    rw [← hf]
    exact List.mem_filter.mpr ⟨ha, haq⟩
  rcases List.mem_cons.mp hmem with h | h
  · exact h
  · exfalso
    have hp1mem : p1 ∈ sched.filter q := by
      rw [hf]
      exact List.mem_cons_self p1 rest
    have hq1 : q p1 = true := (List.mem_filter.mp hp1mem).2
    have e1 : (p1.1, p1.2.1) = v := hq p1 hq1
    have e2 : (a.1, a.2.1) = v := hq a haq
    rw [List.map_cons, List.nodup_cons] at hnd2
    refine hnd2.1 ?_
    rw [e1, ← e2]
    exact List.mem_map_of_mem _ h

lemma prec_ok_iff (inst : FJSPInstance) (sched : Sched)
    (hnd : (sched.map (fun s : Op => (s.1, s.2.1))).Nodup) (patient : ℕ) (e : ℕ × ℕ) :
    prec_ok inst sched patient e = true ↔
      ∀ a ∈ sched, ∀ b ∈ sched, a.1 = patient → a.2.1 = e.1 → b.1 = patient → b.2.1 = e.2 →
        a.2.2 + inst.processing_times patient e.1 ≤ b.2.2 := by
  unfold prec_ok
  cases hf1 : sched.filter (fun s => decide (s.1 = patient) && decide (s.2.1 = e.1)) with
  | nil =>
    constructor
    · intro _ a ha b hb h1 h2 h3 h4
      exfalso
      have hmem : a ∈ sched.filter (fun s => decide (s.1 = patient) && decide (s.2.1 = e.1)) :=
        List.mem_filter.mpr ⟨ha, by rw [h1, h2]; simp⟩
      rw [hf1] at hmem
      cases hmem
    · intro _
      rfl
  | cons p1 rest1 =>
    cases hf2 : sched.filter (fun s => decide (s.1 = patient) && decide (s.2.1 = e.2)) with
    | nil =>
      constructor
      · intro _ a ha b hb h1 h2 h3 h4
        exfalso
        have hmem : b ∈ sched.filter (fun s => decide (s.1 = patient) && decide (s.2.1 = e.2)) :=
          List.mem_filter.mpr ⟨hb, by rw [h3, h4]; simp⟩
        rw [hf2] at hmem
        cases hmem
      · intro _
        rfl
    | cons n1 rest2 =>
      rw [decide_eq_true_eq]
      have hq1 : ∀ s : Op,
          (decide (s.1 = patient) && decide (s.2.1 = e.1)) = true → (s.1, s.2.1) = (patient, e.1) := by
        intro s hs
        rw [Bool.and_eq_true, decide_eq_true_eq, decide_eq_true_eq] at hs
        rw [hs.1, hs.2]
      have hq2 : ∀ s : Op,
          (decide (s.1 = patient) && decide (s.2.1 = e.2)) = true → (s.1, s.2.1) = (patient, e.2) := by
        intro s hs
        rw [Bool.and_eq_true, decide_eq_true_eq, decide_eq_true_eq] at hs
        rw [hs.1, hs.2]
      constructor
      · intro hle a ha b hb h1 h2 h3 h4
        have ha2 : a = p1 := filter_proj_unique hnd hq1 hf1 ha (by rw [h1, h2]; simp)
        have hb2 : b = n1 := filter_proj_unique hnd hq2 hf2 hb (by rw [h3, h4]; simp)
        rw [ha2, hb2]
        exact hle
      · intro hall
        have hp1mem : p1 ∈ sched.filter (fun s => decide (s.1 = patient) && decide (s.2.1 = e.1)) := by
          rw [hf1]
          exact List.mem_cons_self p1 rest1
        have hn1mem : n1 ∈ sched.filter (fun s => decide (s.1 = patient) && decide (s.2.1 = e.2)) := by
          rw [hf2]
          exact List.mem_cons_self n1 rest2
        obtain ⟨hp1s, hp1q⟩ := List.mem_filter.mp hp1mem
        obtain ⟨hn1s, hn1q⟩ := List.mem_filter.mp hn1mem
        rw [Bool.and_eq_true, decide_eq_true_eq, decide_eq_true_eq] at hp1q hn1q
        exact hall p1 hp1s n1 hn1s hp1q.1 hp1q.2 hn1q.1 hn1q.2

/-- C1 (amended): for every schedule in which each (patient, counter)
operation appears at most once — the data model's notion of a schedule,
an assignment of one start time per operation — `is_feasible` returns
true if and only if (a) for every counter, the start-sorted assigned
operations each complete no later than the next one starts, and (b) for
every patient and precedence edge with both operations present, the
predecessor completes no later than the successor starts.  (Without the
at-most-once restriction the claim fails, because the code checks only
the first listed occurrence per counter — see the counterexample.) -/
theorem claim_C1 (inst : FJSPInstance) (sched : Sched)
    (hnd : (sched.map (fun s : Op => (s.1, s.2.1))).Nodup) :
    is_feasible inst sched = true ↔ spec_feasible inst sched := by
  unfold is_feasible spec_feasible
  simp only [Bool.and_eq_true, List.all_eq_true]
  apply and_congr
  · apply forall₂_congr
    intro counter _
    exact noOverlap_iff_chain inst counter (counter_ops sched counter)
      (fun a ha => (mem_counter_ops.mp ha).2)
  · apply forall₂_congr
    intro patient _
    apply forall₂_congr
    intro e _
    exact prec_ok_iff inst sched hnd patient e

/-- C1 counterexample: on the degenerate schedule listing patient 1's
operation on counter 1 twice (starts 0 and 96), `is_feasible` accepts —
it compares only the first listed occurrence (start 0, completion 11)
against the successor on counter 2 (start 100) — while the claimed
condition (b) fails for the second occurrence, which completes at 107,
after the successor's start 100. -/
theorem claim_C1_counterexample :
    is_feasible referenceInstance dupSchedule = true ∧
    ¬ spec_feasible referenceInstance dupSchedule := by
  constructor
  · with_unfolding_all rfl
  · intro h
    have h2 := h.2 1 (by with_unfolding_all decide) (1, 2) (by with_unfolding_all decide)
      (1, 1, 96) (by with_unfolding_all decide) (1, 2, 100) (by with_unfolding_all decide)
      rfl rfl rfl rfl
    have h3 : ¬ ((96 : ℚ) + referenceInstance.processing_times 1 1 ≤ 100) := by
      with_unfolding_all decide
    exact h3 h2

/-- C1 witness: the equivalence applied to the duplicate-free
hand-constructed schedule, instantiated at patient 1's edge (1, 2): its
operation on counter 1 completes no later than its operation on counter 2
starts. -/
theorem claim_C1_witness :
    (((1 : ℕ), (1 : ℕ), (0 : ℚ)) : Op).2.2 + referenceInstance.processing_times 1 1 ≤
      (((1 : ℕ), (2 : ℕ), (11 : ℚ)) : Op).2.2 :=
  ((claim_C1 referenceInstance handSchedule (by with_unfolding_all decide)).mp
      (by with_unfolding_all rfl)).2 1 (by with_unfolding_all decide) (1, 2)
      (by with_unfolding_all decide) (1, 1, 0) (by with_unfolding_all decide)
      (1, 2, 11) (by with_unfolding_all decide) rfl rfl rfl rfl

lemma foldl_step_ge {α : Type} (f : ℚ → α → ℚ) (hf : ∀ a x, a ≤ f a x) :
    ∀ (l : List α) (a : ℚ), a ≤ l.foldl f a := by
  intro l
  induction l with
  | nil => intro a; exact le_rfl
  | cons x xs ih => intro a; exact le_trans (hf a x) (ih (f a x))

lemma base_le_earliest_start (inst : FJSPInstance) (st : PlaceState) (patient counter : ℕ) :
    max (st.counter_available_time counter) (st.patient_completion_time patient) ≤
      earliest_start inst st patient counter := by
  unfold earliest_start
  apply foldl_step_ge
  intro a e
  dsimp only
  by_cases hc : counter = e.2
  · rw [if_pos hc]
    cases hfil : st.schedule.filter (fun s => decide (s.1 = patient) && decide (s.2.1 = e.1)) with
    | nil => exact le_rfl
    | cons prev rest => exact le_max_left a _
  · rw [if_neg hc]

lemma place_inv (inst : FJSPInstance) (st : PlaceState) (op : ℕ × ℕ)
    (hinv : PlaceInv inst st) (hdur : 0 ≤ inst.processing_times op.1 op.2) :
    PlaceInv inst (place inst st op) := by
  have hcav : st.counter_available_time op.2 ≤ earliest_start inst st op.1 op.2 :=
    le_trans (le_max_left _ _) (base_le_earliest_start inst st op.1 op.2)
  have hpct : st.patient_completion_time op.1 ≤ earliest_start inst st op.1 op.2 :=
    le_trans (le_max_right _ _) (base_le_earliest_start inst st op.1 op.2)
  have hes0 : 0 ≤ earliest_start inst st op.1 op.2 :=
    le_trans (hinv.cav_nonneg op.2) hcav
  constructor
  · intro c
    dsimp only [place]
    by_cases hc : c = op.2
    · rw [if_pos hc]
      exact add_nonneg hes0 hdur
    · rw [if_neg hc]
      exact hinv.cav_nonneg c
  · intro p
    dsimp only [place]
    by_cases hp : p = op.1
    · rw [if_pos hp]
      exact add_nonneg hes0 hdur
    · rw [if_neg hp]
      exact hinv.pct_nonneg p
  · intro s hs
    dsimp only [place] at hs
    rcases List.mem_append.mp hs with h | h
    · exact hinv.start_nonneg s h
    · rw [List.mem_singleton.mp h]
      exact hes0
  · intro s hs
    dsimp only [place] at hs ⊢
    rcases List.mem_append.mp hs with h | h
    · by_cases hc : s.2.1 = op.2
      · rw [if_pos hc]
        refine le_trans (hinv.cav_ub s h) ?_
        rw [hc]
        exact le_trans hcav (le_add_of_nonneg_right hdur)
      · rw [if_neg hc]
        exact hinv.cav_ub s h
    · rw [List.mem_singleton.mp h]
      rw [if_pos rfl]
  · intro s hs
    dsimp only [place] at hs ⊢
    rcases List.mem_append.mp hs with h | h
    · by_cases hp : s.1 = op.1
      · rw [if_pos hp]
        refine le_trans (hinv.pct_ub s h) ?_
        rw [hp]
        exact le_trans hpct (le_add_of_nonneg_right hdur)
      · rw [if_neg hp]
        exact hinv.pct_ub s h
    · rw [List.mem_singleton.mp h]
      rw [if_pos rfl]
  · dsimp only [place]
    refine List.pairwise_append.mpr ⟨hinv.counter_seq, List.pairwise_singleton _ _, ?_⟩
    intro a ha b hb
    rw [List.mem_singleton.mp hb]
    intro hcc
    refine le_trans (hinv.cav_ub a ha) ?_
    rw [show a.2.1 = op.2 from hcc]
    exact hcav
  · dsimp only [place]
    refine List.pairwise_append.mpr ⟨hinv.patient_seq, List.pairwise_singleton _ _, ?_⟩
    intro a ha b hb
    rw [List.mem_singleton.mp hb]
    intro hpp
    refine le_trans (hinv.pct_ub a ha) ?_
    rw [show a.1 = op.1 from hpp]
    exact hpct

lemma initState_inv (inst : FJSPInstance) : PlaceInv inst initState :=
  ⟨fun _ => le_rfl, fun _ => le_rfl,
   fun s hs => absurd hs (List.not_mem_nil s),
   fun s hs => absurd hs (List.not_mem_nil s),
   fun s hs => absurd hs (List.not_mem_nil s),
   List.Pairwise.nil, List.Pairwise.nil⟩

lemma foldl_place_inv (inst : FJSPInstance) :
    ∀ (order : List (ℕ × ℕ)) (st : PlaceState), PlaceInv inst st →
      (∀ x ∈ order, 0 ≤ inst.processing_times x.1 x.2) →
      PlaceInv inst (order.foldl (place inst) st) := by
  intro order
  induction order with
  | nil => intro st h _; exact h
  | cons x xs ih =>
    intro st h hdur
    exact ih (place inst st x) (place_inv inst st x h (hdur x (List.mem_cons_self x xs)))
      (fun y hy => hdur y (List.mem_cons_of_mem x hy))

lemma samePatient_imp_precEdge (inst : FJSPInstance) (a b : Op)
    (h : samePatientSeq inst a b) : precEdgeSeq inst a b := by
  intro e _ hb h1 _
  have h2 := h hb.symm
  rw [h1] at h2
  exact h2

/-- C2: for every well-formed instance (precedence edges name only
counters in the patient's duration table; durations positive) and every
shuffled order of the operation list, `create_random_schedule` assigns
every operation a non-negative start time, never assigns two operations
overlapping time intervals on the same counter (the earlier-placed
operation completes no later than the later-placed one starts), and
satisfies every precedence edge whose predecessor operation was placed
before its successor: the proof maintains the placement invariant that
`counter_available_time` and `patient_completion_time` bound the
completion times of the operations placed so far. -/
theorem claim_C2 (inst : FJSPInstance) (order : List (ℕ × ℕ))
    (hperm : order.Perm (all_operations inst))
    (_hwf : ∀ p ∈ inst.patients, ∀ e ∈ inst.precedence p,
      e.1 ∈ inst.operations p ∧ e.2 ∈ inst.operations p)
    (hpos : ∀ p ∈ inst.patients, ∀ c ∈ inst.operations p, 0 < inst.processing_times p c) :
    (∀ s ∈ create_random_schedule inst order, 0 ≤ s.2.2) ∧
    List.Pairwise (sameCounterSeq inst) (create_random_schedule inst order) ∧
    List.Pairwise (precEdgeSeq inst) (create_random_schedule inst order) := by
  have hdur : ∀ x ∈ order, 0 ≤ inst.processing_times x.1 x.2 := by
    intro x hx
    have hx2 : x ∈ all_operations inst := hperm.subset hx
    unfold all_operations at hx2
    rcases List.mem_flatten.mp hx2 with ⟨l, hl, hxl⟩
    rcases List.mem_map.mp hl with ⟨p, hp, rfl⟩
    rcases List.mem_map.mp hxl with ⟨c, hc, rfl⟩
    exact (hpos p hp c hc).le
  have hinv := foldl_place_inv inst order initState (initState_inv inst) hdur
  exact ⟨hinv.start_nonneg, hinv.counter_seq,
    hinv.patient_seq.imp (samePatient_imp_precEdge inst _ _)⟩

/-- C2 witness: the construction guarantees applied to the reference
instance with the identity shuffle, instantiated at the first placed
operation (patient 1 on counter 1 at start 0). -/
theorem claim_C2_witness : (0 : ℚ) ≤ (((1 : ℕ), (1 : ℕ), (0 : ℚ)) : Op).2.2 :=
  (claim_C2 referenceInstance (all_operations referenceInstance) (List.Perm.refl _)
      (by with_unfolding_all decide) (by with_unfolding_all decide)).1
    (1, 1, 0) (by with_unfolding_all decide)

lemma foldl_min_le_init {α : Type} [LinearOrder α] :
    ∀ (l : List α) (a : α), l.foldl min a ≤ a := by
  intro l
  induction l with
  | nil => intro a; exact le_rfl
  | cons x xs ih => intro a; exact le_trans (ih (min a x)) (min_le_left a x)

lemma foldl_min_le_mem {α : Type} [LinearOrder α] :
    ∀ (l : List α) (a x : α), x ∈ l → l.foldl min a ≤ x := by
  intro l
  induction l with
  | nil => intro a x hx; cases hx
  | cons y ys ih =>
    intro a x hx
    rcases List.mem_cons.mp hx with h | h
    · rw [h]
      exact le_trans (foldl_min_le_init ys (min a y)) (min_le_right a y)
    · exact ih (min a y) x h

lemma le_foldl_min {α : Type} [LinearOrder α] :
    ∀ (l : List α) (a m : α), m ≤ a → (∀ x ∈ l, m ≤ x) → m ≤ l.foldl min a := by
  intro l
  induction l with
  | nil => intro a m ha _; exact ha
  | cons y ys ih =>
    intro a m ha hl
    exact ih (min a y) m (le_min ha (hl y (List.mem_cons_self y ys)))
      (fun x hx => hl x (List.mem_cons_of_mem y hx))

lemma solve_makespan (inst : FJSPInstance) (params : GAParams) (r : Rand) :
    (solve inst params r).makespan =
      (ga_loop inst params params.generations
        (init_population inst params.population_size r).1 (⊤, none) []
        (init_population inst params.population_size r).2).1.1 := rfl

lemma solve_fitness_history (inst : FJSPInstance) (params : GAParams) (r : Rand) :
    (solve inst params r).fitness_history =
      (ga_loop inst params params.generations
        (init_population inst params.population_size r).1 (⊤, none) []
        (init_population inst params.population_size r).2).2.1 := rfl

lemma ga_loop_succ (inst : FJSPInstance) (params : GAParams) (gens : ℕ)
    (population : List Sched) (best : WithTop ℚ × Option Sched)
    (history : List (WithTop ℚ)) (r : Rand) :
    ga_loop inst params (gens + 1) population best history r =
      ga_loop inst params gens
        (next_generation inst params population (population.map (calculate_fitness inst)) r).1
        (update_best inst population best)
        (history ++ [best_gen_fitness inst population])
        (next_generation inst params population (population.map (calculate_fitness inst)) r).2 :=
  rfl

lemma ga_loop_hist_length (inst : FJSPInstance) (params : GAParams) :
    ∀ (g : ℕ) (pop : List Sched) (best : WithTop ℚ × Option Sched)
      (hist : List (WithTop ℚ)) (r : Rand),
      (ga_loop inst params g pop best hist r).2.1.length = hist.length + g := by
  intro g
  induction g with
  | zero => intro pop best hist r; rfl
  | succ g ih =>
    intro pop best hist r
    rw [ga_loop_succ, ih, List.length_append]
    simp
    omega

lemma update_best_histInv (inst : FJSPInstance) (population : List Sched)
    (best : WithTop ℚ × Option Sched) (hist : List (WithTop ℚ))
    (h : histInv best.1 hist) :
    histInv (update_best inst population best).1
      (hist ++ [best_gen_fitness inst population]) := by
  constructor
  · intro habs
    exact absurd habs (by simp)
  · intro _
    unfold update_best
    by_cases hlt : best_gen_fitness inst population < best.1
    · rw [if_pos hlt]
      constructor
      · exact List.mem_append.mpr (Or.inr (List.mem_singleton_self _))
      · intro x hx
        rcases List.mem_append.mp hx with hx | hx
        · by_cases hne : hist = []
          · rw [hne] at hx
            cases hx
          · exact le_trans hlt.le ((h.2 hne).2 x hx)
        · rw [List.mem_singleton.mp hx]
    · rw [if_neg hlt]
      have hge : best.1 ≤ best_gen_fitness inst population := not_lt.mp hlt
      by_cases hne : hist = []
      · have hb : best.1 = ⊤ := h.1 hne
        have hbg : best_gen_fitness inst population = ⊤ := top_le_iff.mp (hb ▸ hge)
        rw [hne]
        constructor
        · rw [hb, ← hbg]
          exact List.mem_singleton_self _
        · intro x hx
          rw [List.mem_singleton.mp hx, hb, hbg]
      · obtain ⟨hmem, hle⟩ := h.2 hne
        constructor
        · exact List.mem_append.mpr (Or.inl hmem)
        · intro x hx
          rcases List.mem_append.mp hx with hx | hx
          · exact hle x hx
          · rw [List.mem_singleton.mp hx]
            exact hge

lemma ga_loop_histInv (inst : FJSPInstance) (params : GAParams) :
    ∀ (g : ℕ) (pop : List Sched) (best : WithTop ℚ × Option Sched)
      (hist : List (WithTop ℚ)) (r : Rand),
      histInv best.1 hist →
      histInv (ga_loop inst params g pop best hist r).1.1
        (ga_loop inst params g pop best hist r).2.1 := by
  intro g
  induction g with
  | zero => intro pop best hist r h; exact h
  | succ g ih =>
    intro pop best hist r h
    rw [ga_loop_succ]
    exact ih _ _ _ _ (update_best_histInv inst pop best hist h)

/-- C10: with at least one generation, the `makespan` field of `solve`'s
result is the minimum of the returned best-fitness history: it belongs to
the history and is a lower bound of it. -/
theorem claim_C10 (inst : FJSPInstance) (params : GAParams) (r : Rand)
    (hg : 1 ≤ params.generations) :
    (solve inst params r).makespan ∈ (solve inst params r).fitness_history ∧
    ∀ x ∈ (solve inst params r).fitness_history, (solve inst params r).makespan ≤ x := by
  rw [solve_makespan, solve_fitness_history]
  have h := ga_loop_histInv inst params params.generations
    (init_population inst params.population_size r).1 (⊤, none) []
    (init_population inst params.population_size r).2
    ⟨fun _ => rfl, fun hne => absurd rfl hne⟩
  have hlen := ga_loop_hist_length inst params params.generations
    (init_population inst params.population_size r).1 (⊤, none) []
    (init_population inst params.population_size r).2
  have hne : (ga_loop inst params params.generations
      (init_population inst params.population_size r).1 (⊤, none) []
      (init_population inst params.population_size r).2).2.1 ≠ [] := by
    intro he
    rw [he] at hlen
    simp at hlen
    omega
  exact h.2 hne

/-- C10 witness: the minimum property at the tiny fixture run (two
generations): the returned makespan occurs in the returned history. -/
theorem claim_C10_witness :
    1 ≤ tinyParams.generations ∧
    (solve tinyInstance tinyParams tinyRand).makespan ∈
      (solve tinyInstance tinyParams tinyRand).fitness_history :=
  ⟨by decide, (claim_C10 tinyInstance tinyParams tinyRand (by decide)).1⟩

lemma init_population_length (inst : FJSPInstance) :
    ∀ (n : ℕ) (r : Rand), (init_population inst n r).1.length = n := by
  intro n
  induction n with
  | zero => intro r; rfl
  | succ n ih =>
    intro r
    show ((random_schedule_draw inst r).1 ::
        (init_population inst n (random_schedule_draw inst r).2).1).length = n + 1
    rw [List.length_cons, ih]

lemma extend_population_prefix (inst : FJSPInstance) (params : GAParams)
    (population : List Sched) (fitnesses : List (WithTop ℚ)) :
    ∀ (fuel : ℕ) (cur : List Sched) (r : Rand),
      ∃ ext, (extend_population inst params population fitnesses fuel cur r).1 = cur ++ ext := by
  intro fuel
  induction fuel with
  | zero => intro cur r; exact ⟨[], (List.append_nil cur).symm⟩
  | succ fuel ih =>
    intro cur r
    unfold extend_population
    by_cases hlen : cur.length < params.population_size
    · rw [if_pos hlen]
      obtain ⟨ext, he⟩ := ih
        (cur ++ [(offspring inst params population fitnesses r).1,
                 (offspring inst params population fitnesses r).2.1])
        (offspring inst params population fitnesses r).2.2
      refine ⟨[(offspring inst params population fitnesses r).1,
               (offspring inst params population fitnesses r).2.1] ++ ext, ?_⟩
      rw [he, List.append_assoc]
    · rw [if_neg hlen]
      exact ⟨[], (List.append_nil cur).symm⟩

lemma next_generation_head (inst : FJSPInstance) (params : GAParams)
    (population : List Sched) (fitnesses : List (WithTop ℚ)) (r : Rand)
    (hne : population ≠ []) (hE : 1 ≤ params.elite_size) (hP : 1 ≤ params.population_size) :
    ∃ s0 t, (next_generation inst params population fitnesses r).1 = s0 :: t ∧
      ∀ x ∈ population, calculate_fitness inst s0 ≤ calculate_fitness inst x := by
  have hperm := List.perm_insertionSort (fitLE inst) population
  cases hs : List.insertionSort (fitLE inst) population with
  | nil =>
    exfalso
    rw [hs] at hperm
    exact hne hperm.symm.eq_nil
  | cons s0 stail =>
    have hsorted := List.sorted_insertionSort (fitLE inst) population
    rw [hs] at hsorted hperm
    have hmin : ∀ x ∈ population, calculate_fitness inst s0 ≤ calculate_fitness inst x := by
      intro x hx
      rcases List.mem_cons.mp (hperm.mem_iff.mpr hx) with h | h
      · rw [h]
      · exact List.rel_of_sorted_cons hsorted x h
    obtain ⟨k, hk⟩ := Nat.exists_eq_add_of_le hE
    have hk2 : params.elite_size = k + 1 := by omega
    have helites : elites inst params population = s0 :: stail.take k := by
      unfold elites
      rw [hs, hk2]
      rfl
    obtain ⟨ext, hext⟩ := extend_population_prefix inst params population fitnesses
      params.population_size (elites inst params population) r
    obtain ⟨m, hm⟩ : ∃ m, params.population_size = m + 1 :=
      ⟨params.population_size - 1, by omega⟩
    refine ⟨s0, (stail.take k ++ ext).take m, ?_, hmin⟩
    show (extend_population inst params population fitnesses
        params.population_size (elites inst params population) r).1.take
        params.population_size = _
    rw [hext, helites, hm, List.cons_append, List.take_succ_cons]

lemma best_gen_next_le (inst : FJSPInstance) (params : GAParams)
    (population : List Sched) (fitnesses : List (WithTop ℚ)) (r : Rand)
    (hne : population ≠ []) (hE : 1 ≤ params.elite_size) (hP : 1 ≤ params.population_size) :
    best_gen_fitness inst (next_generation inst params population fitnesses r).1 ≤
      best_gen_fitness inst population := by
  obtain ⟨s0, t, hnext, hmin⟩ :=
    next_generation_head inst params population fitnesses r hne hE hP
  have h1 : best_gen_fitness inst (next_generation inst params population fitnesses r).1 ≤
      calculate_fitness inst s0 := by
    rw [hnext]
    exact foldl_min_le_mem _ _ _ (List.mem_map_of_mem _ (List.mem_cons_self s0 t))
  have h2 : calculate_fitness inst s0 ≤ best_gen_fitness inst population := by
    apply le_foldl_min
    · exact le_top
    · intro y hy
      rcases List.mem_map.mp hy with ⟨z, hz, rfl⟩
      exact hmin z hz
  exact le_trans h1 h2

lemma next_generation_ne_nil (inst : FJSPInstance) (params : GAParams)
    (population : List Sched) (fitnesses : List (WithTop ℚ)) (r : Rand)
    (hne : population ≠ []) (hE : 1 ≤ params.elite_size) (hP : 1 ≤ params.population_size) :
    (next_generation inst params population fitnesses r).1 ≠ [] := by
  obtain ⟨s0, t, hnext, _⟩ :=
    next_generation_head inst params population fitnesses r hne hE hP
  rw [hnext]
  exact List.cons_ne_nil s0 t

lemma ga_loop_chain (inst : FJSPInstance) (params : GAParams)
    (hE : 1 ≤ params.elite_size) (hP : 1 ≤ params.population_size) :
    ∀ (g : ℕ) (pop : List Sched) (best : WithTop ℚ × Option Sched)
      (hist : List (WithTop ℚ)) (r : Rand),
      pop ≠ [] →
      List.Chain' (fun a b : WithTop ℚ => b ≤ a) hist →
      (∀ x ∈ hist.getLast?, best_gen_fitness inst pop ≤ x) →
      List.Chain' (fun a b : WithTop ℚ => b ≤ a) (ga_loop inst params g pop best hist r).2.1 := by
  intro g
  induction g with
  | zero => intro pop best hist r _ hc _; exact hc
  | succ g ih =>
    intro pop best hist r hne hc hlast
    rw [ga_loop_succ]
    apply ih
    · exact next_generation_ne_nil inst params pop (pop.map (calculate_fitness inst)) r hne hE hP
    · rw [List.chain'_append]
      refine ⟨hc, List.chain'_singleton _, ?_⟩
      intro x hx y hy
      have hy2 : y = best_gen_fitness inst pop := by
        have := hy
        simp at this
        exact this.symm
      rw [hy2]
      exact hlast x hx
    · intro x hx
      rw [List.getLast?_concat] at hx
      have hx2 : x = best_gen_fitness inst pop := by
        have := hx
        simp at this
        exact this.symm
      rw [hx2]
      exact best_gen_next_le inst params pop (pop.map (calculate_fitness inst)) r hne hE hP

/-- C4: with elite count at least 1 and at most the population size,
tournament size at most the population size, and a positive population
size, the best-fitness history returned by `solve` is non-increasing:
each entry is at least the next one, because the elite copies — led by a
minimum-fitness member of the current population — survive unchanged into
the next generation. -/
theorem claim_C4 (inst : FJSPInstance) (params : GAParams) (r : Rand)
    (h1 : 1 ≤ params.elite_size) (_h2 : params.elite_size ≤ params.population_size)
    (_h3 : params.tournament_size ≤ params.population_size)
    (h4 : 1 ≤ params.population_size) :
    List.Chain' (fun a b : WithTop ℚ => b ≤ a) (solve inst params r).fitness_history := by
  rw [solve_fitness_history]
  apply ga_loop_chain inst params h1 h4
  · intro he
    have hlen := init_population_length inst params.population_size r
    rw [he] at hlen
    simp at hlen
    omega
  · exact List.chain'_nil
  · intro x hx
    exact Option.noConfusion hx

/-- C4 witness: the monotonicity applied to the tiny fixture run
(history of length two): the second recorded best fitness is at most the
first. -/
theorem claim_C4_witness :
    (solve tinyInstance tinyParams tinyRand).fitness_history.getD 1 ⊤ ≤
      (solve tinyInstance tinyParams tinyRand).fitness_history.getD 0 ⊤ := by
  have h := claim_C4 tinyInstance tinyParams tinyRand
    (by decide) (by decide) (by decide) (by decide)
  have e : (solve tinyInstance tinyParams tinyRand).fitness_history =
      [((1 : ℚ) : WithTop ℚ), ((1 : ℚ) : WithTop ℚ)] := by
    with_unfolding_all rfl
  rw [e] at h ⊢
  exact (List.chain'_cons.mp h).1

end FJSP
